import Mathlib

/-!
In-memory user repository, validator and statistics aggregator

A shallow embedding of `models/user.go` and of the statistics loop of
`controllers/user_controller.go`, followed by the properties proved about them.

Modelling conventions.
* Go `int` is embedded as `Int`.  The identity counter starts at 1 and grows by one
  per `Create`, so it cannot leave the 64-bit range in any run that can be carried out.
  The sum of ages in `GetStats` is different: ages are whatever the stored records
  hold, so `totalAge += user.Age` is embedded with 64-bit two's complement wrap-around,
  `wrapInt64`.
* Go `time.Time` is embedded as a natural-number clock reading; every call of
  `time.Now()` in the source becomes an explicit argument of the operation.
* A Go `error` is embedded as `Option String`: `none` is `nil`, `some msg` is
  `errors.New(msg)`.
* A pointer argument that the callee writes through (`user *User`) becomes an extra
  returned component holding the record as the callee left it.
* Go strings are embedded as Lean strings; `len(s)` is the number of bytes of the
  UTF-8 encoding, `String.utf8ByteSize`.
* A finite `float64` is embedded as the rational number it denotes.  The conversion
  `float64(n)` and the division `a / b` round the exact result to the nearest binary64
  value, ties to even, `roundFloat64`.  In `GetStats` the operands are integers of
  magnitude at most `2^63` and the divisor is at least 1, so neither overflow to an
  infinity nor NaN nor a negative zero arises.
-/

namespace Models

/-- Clock readings returned by `time.Now()`. -/
abbrev Time := Nat

/-- Go `type User struct`. -/
structure User where
  ID : Int
  Name : String
  Email : String
  Age : Int
  CreatedAt : Time
  UpdatedAt : Time
deriving DecidableEq, Repr

/-- Go `type InMemoryUserRepository struct`. -/
structure InMemoryUserRepository where
  users : List User
  nextID : Int
deriving DecidableEq, Repr

/-- The message of `errors.New("user not found")`. -/
def errUserNotFound : String := "user not found"

/-- Go `func NewInMemoryUserRepository`. -/
def NewInMemoryUserRepository : InMemoryUserRepository :=
  { users := [], nextID := 1 }

/-- The loop `for i, u := range r.users { if u.ID == id { ... return } }` that
`GetByID`, `Update` and `Delete` share: the index and a copy of the first element whose
`ID` equals `id`, where `i` is the index of the head of the remaining slice. -/
def rangeFind (id : Int) : List User → Nat → Option (Nat × User)
  | [], _ => none
  | u :: rest, i => if u.ID = id then some (i, u) else rangeFind id rest (i + 1)

namespace InMemoryUserRepository

/-- Go `func (r *InMemoryUserRepository) GetAll`. -/
def GetAll (r : InMemoryUserRepository) : List User × Option String :=
  (r.users, none)

/-- Go `func (r *InMemoryUserRepository) GetByID`. -/
def GetByID (r : InMemoryUserRepository) (id : Int) : Option User × Option String :=
  match rangeFind id r.users 0 with
  | some (_, user) => (some user, none)
  | none => (none, some errUserNotFound)

/-- Go `func (r *InMemoryUserRepository) Create`.  `now1` and `now2` are the two
successive readings of `time.Now()`.  Returns the repository, the record as left behind
the pointer, and the error. -/
def Create (r : InMemoryUserRepository) (user : User) (now1 now2 : Time) :
    InMemoryUserRepository × User × Option String :=
  let user := { user with ID := r.nextID }
  let user := { user with CreatedAt := now1 }
  let user := { user with UpdatedAt := now2 }
  ({ users := r.users ++ [user], nextID := r.nextID + 1 }, user, none)

/-- Go `func (r *InMemoryUserRepository) Update`.  `now` is the reading of
`time.Now()`. -/
def Update (r : InMemoryUserRepository) (id : Int) (user : User) (now : Time) :
    InMemoryUserRepository × User × Option String :=
  match rangeFind id r.users 0 with
  | some (i, u) =>
    let user := { user with ID := id }
    let user := { user with CreatedAt := u.CreatedAt }
    let user := { user with UpdatedAt := now }
    ({ r with users := r.users.set i user }, user, none)
  | none => (r, user, some errUserNotFound)

/-- Go `func (r *InMemoryUserRepository) Delete`; the new slice is
`append(r.users[:i], r.users[i+1:]...)`. -/
def Delete (r : InMemoryUserRepository) (id : Int) :
    InMemoryUserRepository × Option String :=
  match rangeFind id r.users 0 with
  | some (i, _) => ({ r with users := r.users.take i ++ r.users.drop (i + 1) }, none)
  | none => (r, some errUserNotFound)

end InMemoryUserRepository

/-- Go `func (u *User) Validate`. -/
def User.Validate (u : User) : Option String :=
  if u.Name = "" then some "name is required"
  else if u.Name.utf8ByteSize < 2 then some "name must be at least 2 characters long"
  else if u.Email = "" then some "email is required"
  else if u.Age ≤ 0 then some "age must be greater than 0"
  else if u.Age > 120 then some "age must be less than 120"
  else none

/-- One mutating call on the repository, with the arguments the caller supplies and the
clock readings the call observes. -/
inductive Op where
  | create (user : User) (now1 now2 : Time)
  | update (id : Int) (user : User) (now : Time)
  | delete (id : Int)
deriving DecidableEq, Repr

open InMemoryUserRepository in
/-- The repository after one call, successful or failing. -/
def step (r : InMemoryUserRepository) : Op → InMemoryUserRepository
  | .create user now1 now2 => (Create r user now1 now2).1
  | .update id user now => (Update r id user now).1
  | .delete id => (Delete r id).1

/-- The repository after a finite sequence of calls. -/
def run (r : InMemoryUserRepository) (ops : List Op) : InMemoryUserRepository :=
  ops.foldl step r

open InMemoryUserRepository in
/-- The ids that the `Create` calls of a sequence of calls write into their records, in
call order. -/
def assignedIDs : InMemoryUserRepository → List Op → List Int
  | _, [] => []
  | r, .create user now1 now2 :: ops =>
    (Create r user now1 now2).2.1.ID :: assignedIDs (Create r user now1 now2).1 ops
  | r, .update id user now :: ops => assignedIDs (Update r id user now).1 ops
  | r, .delete id :: ops => assignedIDs (Delete r id).1 ops

/-- The calls `Create(&rs[0]), Create(&rs[1]), ...` with nothing in between. -/
def createCalls (rs : List (User × Time × Time)) : List Op :=
  rs.map fun p => Op.create p.1 p.2.1 p.2.2

/-- A record that satisfies every rule on name and age, with an email without `@`. -/
def sampleUser : User :=
  { ID := 0, Name := "Alice", Email := "invalid-email", Age := 25, CreatedAt := 0,
    UpdatedAt := 0 }

/-- A repository state with two stored records, reached by two `Create` calls. -/
def sampleCalls : List Op :=
  [.create { sampleUser with Email := "alice@test.com" } 10 11,
   .create { sampleUser with Name := "Bob", Email := "bob@test.com", Age := 35 } 20 21]

/-- A record whose name is the single character U+00E9, two bytes in UTF-8, with a valid
email and age. -/
def oneCharacterNameUser : User :=
  { ID := 0, Name := "é", Email := "e@example.com", Age := 30, CreatedAt := 0,
    UpdatedAt := 0 }

/-- Stored ids are pairwise distinct and lie in `1 ..< nextID`. -/
def IdsFresh (r : InMemoryUserRepository) : Prop :=
  (r.users.map User.ID).Nodup ∧ ∀ u ∈ r.users, 1 ≤ u.ID ∧ u.ID < r.nextID

end Models

namespace Controllers

open Models

/-- A Go `map[string]int`, as a list of key/value pairs with pairwise different keys.
The order of the pairs has no counterpart in Go. -/
abbrev StringIntMap := List (String × Int)

/-- Go `m[k]` on a `map[string]int`: the stored value, or 0 when the key is absent. -/
def mapGet : StringIntMap → String → Int
  | [], _ => 0
  | (k, v) :: rest, key => if k = key then v else mapGet rest key

/-- Go `m[k] = v`: overwrite the value of an existing key, or add the key. -/
def mapSet : StringIntMap → String → Int → StringIntMap
  | [], key, val => [(key, val)]
  | (k, v) :: rest, key, val =>
    if k = key then (k, val) :: rest else (k, v) :: mapSet rest key val

/-- Go `m[k]++`. -/
def mapIncr (m : StringIntMap) (key : String) : StringIntMap :=
  mapSet m key (mapGet m key + 1)

/-- The local variables of `GetStats` that its loop updates. -/
structure StatsVars where
  totalAge : Int
  minAge : Int
  maxAge : Int
  ageRanges : StringIntMap
deriving DecidableEq, Repr

/-- The `data` object of the `GetStats` response, without `generated_at`; `averageAge`
holds the rational number that the `float64` denotes. -/
structure Stats where
  totalUsers : Int
  averageAge : ℚ
  minAge : Int
  maxAge : Int
  ageRanges : StringIntMap
deriving DecidableEq, Repr

/-- Go `int` addition result on a 64-bit target: the value in `[-2^63, 2^63)` congruent
to `x` modulo `2^64`. -/
def wrapInt64 (x : Int) : Int := (x + 2 ^ 63) % 2 ^ 64 - 2 ^ 63

/-- The integer nearest to `x`, the even one of the two when `x` lies half way. -/
def roundHalfEven (x : ℚ) : ℤ :=
  if x - ⌊x⌋ < 1 / 2 then ⌊x⌋
  else if 1 / 2 < x - ⌊x⌋ then ⌊x⌋ + 1
  else if ⌊x⌋ % 2 = 0 then ⌊x⌋ else ⌊x⌋ + 1

/-- IEEE 754 binary64 rounding to nearest, ties to even, of an exact value: the
significand has 53 bits, so `x` is scaled by the power of two that brings it into
`[2^52, 2^53)` (never below the exponent `-1074` of the subnormal numbers), rounded to an
integer and scaled back.  Values beyond the largest finite binary64 are not in the
domain. -/
def roundFloat64 (x : ℚ) : ℚ :=
  if x = 0 then 0
  else (roundHalfEven (x / 2 ^ max (Int.log 2 |x| - 52) (-1074)) : ℚ)
    * 2 ^ max (Int.log 2 |x| - 52) (-1074)

/-- Go conversion `float64(n)` of an `int`. -/
def float64OfInt (n : Int) : ℚ := roundFloat64 (n : ℚ)

/-- Go `a / b` on `float64` operands, for a divisor other than zero. -/
def float64Div (a b : ℚ) : ℚ := roundFloat64 (a / b)

/-- The composite literal that initialises `ageRanges`. -/
def initialAgeRanges : StringIntMap :=
  [("18-25", 0), ("26-35", 0), ("36-50", 0), ("51+", 0)]

/-- The ages of the statistics test: 25, 35 and 45. -/
def sampleStatsUsers : List User :=
  [{ sampleUser with ID := 1 }, { sampleUser with ID := 2, Name := "Bob", Age := 35 },
   { sampleUser with ID := 3, Name := "Charlie", Age := 45 }]

/-- A repository that stores the three records of `sampleStatsUsers`. -/
def sampleStatsRepository : InMemoryUserRepository :=
  { users := sampleStatsUsers, nextID := 4 }

/-- Three calls that store valid records with the ages 1, 1 and 2. -/
def sampleThirdsCalls : List Op :=
  [.create { sampleUser with Email := "a@test.com", Age := 1 } 10 11,
   .create { sampleUser with Name := "Bob", Email := "b@test.com", Age := 1 } 20 21,
   .create { sampleUser with Name := "Carol", Email := "c@test.com", Age := 2 } 30 31]

/-- The map with the four keys of `initialAgeRanges` and the given counts. -/
def rangesOf (a b c d : Int) : StringIntMap :=
  [("18-25", a), ("26-35", b), ("36-50", c), ("51+", d)]

/-- The key chosen by the `switch` of the loop body. -/
def ageRangeKey (age : Int) : String :=
  if age ≥ 18 ∧ age ≤ 25 then "18-25"
  else if age ≥ 26 ∧ age ≤ 35 then "26-35"
  else if age ≥ 36 ∧ age ≤ 50 then "36-50"
  else "51+"

/-- One iteration of `for _, user := range users` in `GetStats`. -/
def statsLoopBody (v : StatsVars) (user : User) : StatsVars :=
  let totalAge := wrapInt64 (v.totalAge + user.Age)
  let minAge := if user.Age < v.minAge then user.Age else v.minAge
  let maxAge := if user.Age > v.maxAge then user.Age else v.maxAge
  let ageRanges := mapIncr v.ageRanges (ageRangeKey user.Age)
  { totalAge := totalAge, minAge := minAge, maxAge := maxAge, ageRanges := ageRanges }

/-- The statistics part of Go `func (uc *UserController) GetStats`, as a function of the
slice returned by `GetAll`. -/
def GetStats (users : List User) : Stats :=
  let totalUsers : Int := users.length
  let v : StatsVars :=
    { totalAge := 0, minAge := 0, maxAge := 0, ageRanges := initialAgeRanges }
  let v : StatsVars :=
    if totalUsers > 0 then
      match users with
      | [] => v
      | user0 :: _ =>
        users.foldl statsLoopBody { v with minAge := user0.Age, maxAge := user0.Age }
    else v
  let averageAge : ℚ :=
    if totalUsers > 0 then float64Div (float64OfInt v.totalAge) (float64OfInt totalUsers)
    else 0
  { totalUsers := totalUsers, averageAge := averageAge, minAge := v.minAge,
    maxAge := v.maxAge, ageRanges := v.ageRanges }

end Controllers

/-! ## The search loop -/

namespace Models

open InMemoryUserRepository

theorem rangeFind_eq_none_iff (id : Int) (l : List User) (i : Nat) :
    rangeFind id l i = none ↔ ∀ u ∈ l, u.ID ≠ id := by
  induction l generalizing i with
  | nil => simp [rangeFind]
  | cons a rest ih =>
    by_cases h : a.ID = id
    · simp [rangeFind, h]
    · simp [rangeFind, h, ih]

/-- A successful search splits the slice at the first element with the wanted id. -/
theorem rangeFind_eq_some (id : Int) (l : List User) (i k : Nat) (u : User)
    (h : rangeFind id l i = some (k, u)) :
    ∃ pre post, l = pre ++ u :: post ∧ k = i + pre.length ∧ u.ID = id ∧
      ∀ x ∈ pre, x.ID ≠ id := by
  induction l generalizing i with
  | nil => simp [rangeFind] at h
  | cons a rest ih =>
    by_cases ha : a.ID = id
    · simp only [rangeFind, ha, if_true, Option.some.injEq, Prod.mk.injEq] at h
      obtain ⟨rfl, rfl⟩ := h
      exact ⟨[], rest, by simp, by simp, ha, by simp⟩
    · simp only [rangeFind, ha, if_false] at h
      obtain ⟨pre, post, hl, hk, hu, hpre⟩ := ih (i + 1) h
      refine ⟨a :: pre, post, by simp [hl], by simp [hk]; omega, hu, ?_⟩
      intro x hx
      rcases List.mem_cons.mp hx with rfl | hx
      · exact ha
      · exact hpre x hx

theorem rangeFind_split (id : Int) (pre post : List User) (u : User) (i : Nat)
    (hu : u.ID = id) (hpre : ∀ x ∈ pre, x.ID ≠ id) :
    rangeFind id (pre ++ u :: post) i = some (i + pre.length, u) := by
  induction pre generalizing i with
  | nil => simp [rangeFind, hu]
  | cons a rest ih =>
    have ha : a.ID ≠ id := hpre a (by simp)
    have := ih (i + 1) (fun x hx => hpre x (by simp [hx]))
    rw [List.cons_append, rangeFind, if_neg ha, this, List.length_cons]
    simp only [Option.some.injEq, Prod.mk.injEq, and_true]
    omega

theorem rangeFind_of_mem (id : Int) (l : List User) (h : ∃ u ∈ l, u.ID = id) :
    ∃ k u, rangeFind id l 0 = some (k, u) := by
  cases hf : rangeFind id l 0 with
  | none =>
    obtain ⟨u, hu, hid⟩ := h
    exact absurd hid ((rangeFind_eq_none_iff id l 0).mp hf u hu)
  | some p => exact ⟨p.1, p.2, rfl⟩

/-! ## The repository invariant -/

theorem idsFresh_new : IdsFresh NewInMemoryUserRepository := by
  simp [IdsFresh, NewInMemoryUserRepository]

theorem idsFresh_create (r : InMemoryUserRepository) (user : User) (now1 now2 : Time)
    (h : IdsFresh r) (hn : 1 ≤ r.nextID) : IdsFresh (Create r user now1 now2).1 := by
  obtain ⟨hnd, hb⟩ := h
  refine ⟨?_, ?_⟩
  · simp only [Create, List.map_append, List.map_cons, List.map_nil]
    rw [List.nodup_append]
    refine ⟨hnd, by simp, ?_⟩
    intro a ha hb2
    simp only [List.mem_singleton] at hb2
    obtain ⟨x, hx, rfl⟩ := List.mem_map.mp ha
    have := (hb x hx).2
    omega
  · intro x hx
    simp only [Create, List.mem_append, List.mem_singleton] at hx ⊢
    rcases hx with hx | rfl
    · have := hb x hx
      omega
    · simp
      omega

theorem idsFresh_update (r : InMemoryUserRepository) (id : Int) (user : User) (now : Time)
    (h : IdsFresh r) : IdsFresh (Update r id user now).1 := by
  unfold Update
  cases hf : rangeFind id r.users 0 with
  | none => simpa using h
  | some p =>
    obtain ⟨k, u⟩ := p
    obtain ⟨pre, post, hl, hk, hu, -⟩ := rangeFind_eq_some id r.users 0 k u hf
    obtain ⟨hnd, hb⟩ := h
    simp only [Nat.zero_add] at hk
    subst hk
    simp only [hl, List.set_append_right _ _ (le_refl _), Nat.sub_self, List.set_cons_zero]
    rw [hl] at hnd hb
    refine ⟨?_, ?_⟩
    · simpa [hu] using hnd
    · intro x hx
      simp only [List.mem_append, List.mem_cons] at hx
      rcases hx with hx | rfl | hx
      · exact hb x (by simp [hx])
      · have := hb u (by simp)
        simpa [hu] using this
      · exact hb x (by simp [hx])

theorem delete_users_sublist (r : InMemoryUserRepository) (id : Int) :
    (Delete r id).1.users.Sublist r.users := by
  unfold Delete
  cases hf : rangeFind id r.users 0 with
  | none => simp
  | some p =>
    obtain ⟨k, u⟩ := p
    obtain ⟨pre, post, hl, hk, -, -⟩ := rangeFind_eq_some id r.users 0 k u hf
    simp only [Nat.zero_add] at hk
    subst hk
    simp only [hl]
    simp

theorem idsFresh_delete (r : InMemoryUserRepository) (id : Int)
    (h : IdsFresh r) : IdsFresh (Delete r id).1 := by
  have hs := delete_users_sublist r id
  have hn : (Delete r id).1.nextID = r.nextID := by
    unfold Delete
    cases rangeFind id r.users 0 <;> rfl
  refine ⟨(hs.map User.ID).nodup h.1, ?_⟩
  intro x hx
  rw [hn]
  exact h.2 x (hs.subset hx)

theorem nextID_le_step (r : InMemoryUserRepository) (op : Op) :
    r.nextID ≤ (step r op).nextID := by
  cases op with
  | create user now1 now2 => simp [step, Create]
  | update id user now =>
    simp only [step, Update]
    cases rangeFind id r.users 0 <;> simp
  | delete id =>
    simp only [step, Delete]
    cases rangeFind id r.users 0 <;> simp

theorem nextID_le_run (r : InMemoryUserRepository) (ops : List Op) :
    r.nextID ≤ (run r ops).nextID := by
  induction ops generalizing r with
  | nil => simp [run]
  | cons op ops ih =>
    have h1 := nextID_le_step r op
    have h2 := ih (step r op)
    simp only [run, List.foldl_cons] at h2 ⊢
    omega

theorem run_append (r : InMemoryUserRepository) (ops more : List Op) :
    run r (ops ++ more) = run (run r ops) more := by
  simp [run, List.foldl_append]

theorem idsFresh_step (r : InMemoryUserRepository) (op : Op)
    (h : IdsFresh r) (hn : 1 ≤ r.nextID) : IdsFresh (step r op) := by
  cases op with
  | create user now1 now2 => exact idsFresh_create r user now1 now2 h hn
  | update id user now => exact idsFresh_update r id user now h
  | delete id => exact idsFresh_delete r id h

theorem idsFresh_run_aux (r : InMemoryUserRepository) (ops : List Op)
    (h : IdsFresh r) (hn : 1 ≤ r.nextID) : IdsFresh (run r ops) := by
  induction ops generalizing r with
  | nil => simpa [run] using h
  | cons op ops ih =>
    have := ih (step r op) (idsFresh_step r op h hn)
      (le_trans hn (nextID_le_step r op))
    simpa [run] using this

/-- Every reachable repository satisfies the invariant. -/
theorem idsFresh_run (ops : List Op) : IdsFresh (run NewInMemoryUserRepository ops) :=
  idsFresh_run_aux _ ops idsFresh_new (by simp [NewInMemoryUserRepository])

theorem assignedIDs_ge (r : InMemoryUserRepository) (ops : List Op) :
    ∀ a ∈ assignedIDs r ops, r.nextID ≤ a := by
  induction ops generalizing r with
  | nil => simp [assignedIDs]
  | cons op ops ih =>
    intro a ha
    cases op with
    | create user now1 now2 =>
      simp only [assignedIDs, List.mem_cons] at ha
      rcases ha with rfl | ha
      · simp [Create]
      · have := ih _ a ha
        simp only [Create] at this
        omega
    | update id user now =>
      simp only [assignedIDs] at ha
      have h1 := ih _ a ha
      have h2 := nextID_le_step r (.update id user now)
      simp only [step] at h2
      omega
    | delete id =>
      simp only [assignedIDs] at ha
      have h1 := ih _ a ha
      have h2 := nextID_le_step r (.delete id)
      simp only [step] at h2
      omega

theorem assignedIDs_increasing (r : InMemoryUserRepository) (ops : List Op) :
    (assignedIDs r ops).Pairwise (· < ·) := by
  induction ops generalizing r with
  | nil => simp [assignedIDs]
  | cons op ops ih =>
    cases op with
    | create user now1 now2 =>
      simp only [assignedIDs, List.pairwise_cons]
      refine ⟨?_, ih _⟩
      intro a ha
      have := assignedIDs_ge _ ops a ha
      simp only [Create] at this ⊢
      omega
    | update id user now => simpa [assignedIDs] using ih _
    | delete id => simpa [assignedIDs] using ih _

theorem run_createCalls (r : InMemoryUserRepository) (rs : List (User × Time × Time))
    (s : Nat) (hs : r.nextID = (s : Int)) :
    (run r (createCalls rs)).users.map User.ID
        = r.users.map User.ID ++ (List.range' s rs.length).map Int.ofNat ∧
      assignedIDs r (createCalls rs) = (List.range' s rs.length).map Int.ofNat := by
  induction rs generalizing r s with
  | nil => simp [run, createCalls, assignedIDs]
  | cons p rs ih =>
    have h := ih (Create r p.1 p.2.1 p.2.2).1 (s + 1) (by simp [Create, hs])
    simp only [createCalls] at h
    simp only [run, createCalls, List.map_cons, List.foldl_cons, step, assignedIDs,
      List.length_cons, List.range'_succ] at h ⊢
    refine ⟨?_, ?_⟩
    · rw [h.1]
      simp [Create, hs]
    · rw [h.2]
      simp [Create, hs]

theorem getElem?_split (pre post : List User) (u : User) :
    (pre ++ u :: post)[pre.length]? = some u := by
  rw [List.getElem?_append_right (le_refl _)]
  simp

theorem set_split (pre post : List User) (u v : User) :
    (pre ++ u :: post).set pre.length v = pre ++ v :: post := by
  rw [List.set_append_right _ _ (le_refl _)]
  simp

theorem update_of_rangeFind (r : InMemoryUserRepository) (id : Int) (user : User)
    (now : Time) (k : Nat) (u : User) (hf : rangeFind id r.users 0 = some (k, u)) :
    Update r id user now
      = (InMemoryUserRepository.mk
            (r.users.set k (User.mk id user.Name user.Email user.Age u.CreatedAt now))
            r.nextID,
          User.mk id user.Name user.Email user.Age u.CreatedAt now, none) := by
  simp [Update, hf]

theorem delete_of_rangeFind (r : InMemoryUserRepository) (id : Int)
    (k : Nat) (u : User) (hf : rangeFind id r.users 0 = some (k, u)) :
    Delete r id
      = (InMemoryUserRepository.mk (r.users.take k ++ r.users.drop (k + 1)) r.nextID,
          none) := by
  simp [Delete, hf]

/-! ## Properties of the repository -/

/-- C1: starting from a new repository, N successive `Create` calls (whatever id and
timestamps the records carry) assign the ids 1, 2, ..., N in call order, and `GetAll`
then returns, without error, exactly N records whose ids are 1..N in that order. -/
theorem create_assigns_one_to_N (rs : List (User × Time × Time)) :
    assignedIDs NewInMemoryUserRepository (createCalls rs)
        = (List.range' 1 rs.length).map Int.ofNat ∧
      (GetAll (run NewInMemoryUserRepository (createCalls rs))).2 = none ∧
      (GetAll (run NewInMemoryUserRepository (createCalls rs))).1.length = rs.length ∧
      (GetAll (run NewInMemoryUserRepository (createCalls rs))).1.map User.ID
        = (List.range' 1 rs.length).map Int.ofNat := by
  have h := run_createCalls NewInMemoryUserRepository rs 1 (by simp [NewInMemoryUserRepository])
  have hid : (GetAll (run NewInMemoryUserRepository (createCalls rs))).1.map User.ID
      = (List.range' 1 rs.length).map Int.ofNat := by
    simpa [GetAll, NewInMemoryUserRepository] using h.1
  refine ⟨h.2, rfl, ?_, hid⟩
  have := congrArg List.length hid
  simpa using this

/-- C2: in every state reachable from a new repository by `Create`, `Update` and `Delete`
calls, the stored ids are pairwise distinct, each lies in `1 ..< nextID`, further calls
never decrease `nextID`, and the ids assigned by the `Create` calls of the sequence are
strictly increasing in call order, hence pairwise distinct, deleted records included. -/
theorem reachable_ids_distinct_and_fresh (ops more : List Op) :
    ((run NewInMemoryUserRepository ops).users.map User.ID).Nodup ∧
      (∀ u ∈ (run NewInMemoryUserRepository ops).users,
        1 ≤ u.ID ∧ u.ID < (run NewInMemoryUserRepository ops).nextID) ∧
      (run NewInMemoryUserRepository ops).nextID
        ≤ (run NewInMemoryUserRepository (ops ++ more)).nextID ∧
      (assignedIDs NewInMemoryUserRepository ops).Pairwise (· < ·) ∧
      (assignedIDs NewInMemoryUserRepository ops).Nodup := by
  have h := idsFresh_run ops
  refine ⟨h.1, h.2, ?_, assignedIDs_increasing _ ops, ?_⟩
  · rw [run_append]
    exact nextID_le_run _ more
  · exact (assignedIDs_increasing _ ops).imp (fun hab => ne_of_lt hab)

/-- C3: in every reachable state `Create` returns no error, its result does not depend
on the id and timestamps the caller put into the record, and `GetByID` of the assigned id
then succeeds with the record that carries the assigned id, the caller's name, email and
age, and the two clock readings. -/
theorem create_then_getByID (ops : List Op) (user : User) (now1 now2 : Time)
    (id0 : Int) (created0 updated0 : Time) :
    (Create (run NewInMemoryUserRepository ops) user now1 now2).2.2 = none ∧
      Create (run NewInMemoryUserRepository ops)
          { user with ID := id0, CreatedAt := created0, UpdatedAt := updated0 } now1 now2
        = Create (run NewInMemoryUserRepository ops) user now1 now2 ∧
      (Create (run NewInMemoryUserRepository ops) user now1 now2).2.1.ID
        = (run NewInMemoryUserRepository ops).nextID ∧
      GetByID (Create (run NewInMemoryUserRepository ops) user now1 now2).1
          (Create (run NewInMemoryUserRepository ops) user now1 now2).2.1.ID
        = (some { ID := (run NewInMemoryUserRepository ops).nextID, Name := user.Name,
                  Email := user.Email, Age := user.Age, CreatedAt := now1,
                  UpdatedAt := now2 }, none) := by
  have h := idsFresh_run ops
  refine ⟨rfl, rfl, rfl, ?_⟩
  have hpre : ∀ x ∈ (run NewInMemoryUserRepository ops).users,
      x.ID ≠ (run NewInMemoryUserRepository ops).nextID := by
    intro x hx
    have := (h.2 x hx).2
    omega
  simp only [GetByID, Create]
  rw [rangeFind_split (run NewInMemoryUserRepository ops).nextID
    (run NewInMemoryUserRepository ops).users []
    { ID := (run NewInMemoryUserRepository ops).nextID, Name := user.Name,
      Email := user.Email, Age := user.Age, CreatedAt := now1, UpdatedAt := now2 }
    0 rfl hpre]

/-- C4: when some stored record has id `i`, `Update(i, r2)` returns no error; with `old`
the record that `GetByID(i)` returned before and `k` its position, the record written back
(and returned by `GetByID(i)` afterwards) has id `i`, the creation time of `old`, the
clock reading of the update as update time and the name, email and age of `r2`; it sits
at position `k`, the length, every other position and `nextID` are unchanged. -/
theorem update_existing (r : InMemoryUserRepository) (i : Int) (r2 : User) (now : Time)
    (h : ∃ u ∈ r.users, u.ID = i) :
    ∃ (k : Nat) (old : User),
      r.users[k]? = some old ∧ old.ID = i ∧ GetByID r i = (some old, none) ∧
      (Update r i r2 now).2.2 = none ∧
      (Update r i r2 now).2.1
        = { ID := i, Name := r2.Name, Email := r2.Email, Age := r2.Age,
            CreatedAt := old.CreatedAt, UpdatedAt := now } ∧
      GetByID (Update r i r2 now).1 i
        = (some { ID := i, Name := r2.Name, Email := r2.Email, Age := r2.Age,
                  CreatedAt := old.CreatedAt, UpdatedAt := now }, none) ∧
      (Update r i r2 now).1.users.length = r.users.length ∧
      (Update r i r2 now).1.users[k]?
        = some { ID := i, Name := r2.Name, Email := r2.Email, Age := r2.Age,
                 CreatedAt := old.CreatedAt, UpdatedAt := now } ∧
      (∀ j, j ≠ k → (Update r i r2 now).1.users[j]? = r.users[j]?) ∧
      (Update r i r2 now).1.nextID = r.nextID := by
  obtain ⟨k, old, hf⟩ := rangeFind_of_mem i r.users h
  obtain ⟨pre, post, hl, hk, hu, hpre⟩ := rangeFind_eq_some i r.users 0 k old hf
  simp only [Nat.zero_add] at hk
  subst hk
  have hU := update_of_rangeFind r i r2 now pre.length old hf
  have hG : GetByID r i = (some old, none) := by simp [GetByID, hf]
  rw [hU]
  refine ⟨pre.length, old, by rw [hl]; exact getElem?_split pre post old, hu, hG,
    rfl, rfl, ?_, ?_, ?_, ?_, rfl⟩
  · simp only [GetByID, hl, set_split]
    rw [rangeFind_split i pre post
      { ID := i, Name := r2.Name, Email := r2.Email, Age := r2.Age,
        CreatedAt := old.CreatedAt, UpdatedAt := now } 0 rfl hpre]
  · simp
  · simp only [hl, set_split]
    exact getElem?_split pre post _
  · intro j hj
    exact List.getElem?_set_ne (Ne.symm hj)

theorem update_existing_witness :
    (∃ u ∈ (run NewInMemoryUserRepository sampleCalls).users, u.ID = 2) ∧
      ∃ (k : Nat) (old : User),
        (run NewInMemoryUserRepository sampleCalls).users[k]? = some old ∧ old.ID = 2 ∧
        GetByID (run NewInMemoryUserRepository sampleCalls) 2 = (some old, none) ∧
        (Update (run NewInMemoryUserRepository sampleCalls) 2 sampleUser 30).2.2 = none ∧
        (Update (run NewInMemoryUserRepository sampleCalls) 2 sampleUser 30).2.1
          = { ID := 2, Name := sampleUser.Name, Email := sampleUser.Email,
              Age := sampleUser.Age, CreatedAt := old.CreatedAt, UpdatedAt := 30 } ∧
        GetByID (Update (run NewInMemoryUserRepository sampleCalls) 2 sampleUser 30).1 2
          = (some { ID := 2, Name := sampleUser.Name, Email := sampleUser.Email,
                    Age := sampleUser.Age, CreatedAt := old.CreatedAt, UpdatedAt := 30 },
              none) ∧
        (Update (run NewInMemoryUserRepository sampleCalls) 2 sampleUser 30).1.users.length
          = (run NewInMemoryUserRepository sampleCalls).users.length ∧
        (Update (run NewInMemoryUserRepository sampleCalls) 2 sampleUser 30).1.users[k]?
          = some { ID := 2, Name := sampleUser.Name, Email := sampleUser.Email,
                   Age := sampleUser.Age, CreatedAt := old.CreatedAt, UpdatedAt := 30 } ∧
        (∀ j, j ≠ k →
          (Update (run NewInMemoryUserRepository sampleCalls) 2 sampleUser 30).1.users[j]?
            = (run NewInMemoryUserRepository sampleCalls).users[j]?) ∧
        (Update (run NewInMemoryUserRepository sampleCalls) 2 sampleUser 30).1.nextID
          = (run NewInMemoryUserRepository sampleCalls).nextID :=
  ⟨by decide,
    update_existing (run NewInMemoryUserRepository sampleCalls) 2 sampleUser 30 (by decide)⟩

/-- C5: in a reachable state that stores a record with id `i`, `Delete(i)` returns no
error, `GetByID(i)` then fails with "user not found", `GetAll` is shorter by exactly one,
and what remains is the former sequence without the record of id `i`, every other record
unchanged and in the same order; `nextID` is unchanged. -/
theorem delete_existing (ops : List Op) (i : Int)
    (h : ∃ u ∈ (run NewInMemoryUserRepository ops).users, u.ID = i) :
    (Delete (run NewInMemoryUserRepository ops) i).2 = none ∧
      GetByID (Delete (run NewInMemoryUserRepository ops) i).1 i
        = (none, some "user not found") ∧
      (GetAll (Delete (run NewInMemoryUserRepository ops) i).1).1.length + 1
        = (GetAll (run NewInMemoryUserRepository ops)).1.length ∧
      (GetAll (Delete (run NewInMemoryUserRepository ops) i).1).1
        = (GetAll (run NewInMemoryUserRepository ops)).1.filter (fun u => decide (u.ID ≠ i)) ∧
      (Delete (run NewInMemoryUserRepository ops) i).1.nextID
        = (run NewInMemoryUserRepository ops).nextID := by
  have hinv := idsFresh_run ops
  generalize run NewInMemoryUserRepository ops = r at h hinv ⊢
  obtain ⟨k, old, hf⟩ := rangeFind_of_mem i r.users h
  obtain ⟨pre, post, hl, hk, hu, hpre⟩ := rangeFind_eq_some i r.users 0 k old hf
  simp only [Nat.zero_add] at hk
  subst hk
  have hnd := hinv.1
  rw [hl] at hnd
  simp only [List.map_append, List.map_cons, List.nodup_append, List.nodup_cons,
    List.mem_map, not_exists, not_and] at hnd
  have hpost : ∀ x ∈ post, x.ID ≠ i := by
    intro x hx hxi
    exact hnd.2.1.1 x hx (hxi.trans hu.symm)
  have hdel : (Delete r i).1.users = pre ++ post := by
    rw [delete_of_rangeFind r i pre.length old hf]
    simp [hl]
  have hall : ∀ x ∈ pre ++ post, x.ID ≠ i := by
    intro x hx
    rcases List.mem_append.mp hx with hx | hx
    · exact hpre x hx
    · exact hpost x hx
  refine ⟨by simp [Delete, hf], ?_, ?_, ?_, by simp [Delete, hf]⟩
  · have : rangeFind i (Delete r i).1.users 0 = none := by
      rw [hdel]
      exact (rangeFind_eq_none_iff i _ 0).mpr hall
    simp [GetByID, this, errUserNotFound]
  · simp only [GetAll, hdel, hl]
    simp
    omega
  · simp only [GetAll, hdel, hl, List.filter_append, List.filter_cons]
    have h1 : pre.filter (fun u => decide (u.ID ≠ i)) = pre :=
      List.filter_eq_self.mpr (fun x hx => by simpa using hpre x hx)
    have h2 : post.filter (fun u => decide (u.ID ≠ i)) = post :=
      List.filter_eq_self.mpr (fun x hx => by simpa using hpost x hx)
    rw [h1, h2]
    simp [hu]

theorem delete_existing_witness :
    (∃ u ∈ (run NewInMemoryUserRepository sampleCalls).users, u.ID = 1) ∧
      ((Delete (run NewInMemoryUserRepository sampleCalls) 1).2 = none ∧
        GetByID (Delete (run NewInMemoryUserRepository sampleCalls) 1).1 1
          = (none, some "user not found") ∧
        (GetAll (Delete (run NewInMemoryUserRepository sampleCalls) 1).1).1.length + 1
          = (GetAll (run NewInMemoryUserRepository sampleCalls)).1.length ∧
        (GetAll (Delete (run NewInMemoryUserRepository sampleCalls) 1).1).1
          = (GetAll (run NewInMemoryUserRepository sampleCalls)).1.filter
              (fun u => decide (u.ID ≠ 1)) ∧
        (Delete (run NewInMemoryUserRepository sampleCalls) 1).1.nextID
          = (run NewInMemoryUserRepository sampleCalls).nextID) :=
  ⟨by decide, delete_existing sampleCalls 1 (by decide)⟩

/-- C6: in every repository state, each of `GetByID`, `Update` and `Delete` returns the
error "user not found" exactly when no stored record has the id, returns no other error,
and a failing `Update` or `Delete` returns the repository (collection and `nextID`) and
the caller's record as they were; `GetByID` has no repository output at all. -/
theorem not_found_iff_absent (r : InMemoryUserRepository) (id : Int) (user : User)
    (now : Time) :
    ((GetByID r id).2 = some "user not found" ↔ ∀ u ∈ r.users, u.ID ≠ id) ∧
      ((Update r id user now).2.2 = some "user not found" ↔ ∀ u ∈ r.users, u.ID ≠ id) ∧
      ((Delete r id).2 = some "user not found" ↔ ∀ u ∈ r.users, u.ID ≠ id) ∧
      ((GetByID r id).2 ≠ none → GetByID r id = (none, some "user not found")) ∧
      ((Update r id user now).2.2 ≠ none →
        Update r id user now = (r, user, some "user not found")) ∧
      ((Delete r id).2 ≠ none → Delete r id = (r, some "user not found")) := by
  rw [← rangeFind_eq_none_iff id r.users 0]
  cases hf : rangeFind id r.users 0 with
  | none => simp [GetByID, Update, Delete, hf, errUserNotFound]
  | some p => simp [GetByID, Update, Delete, hf, errUserNotFound]

end Models

/-! ## The statistics loop -/

namespace Controllers

open Models InMemoryUserRepository

theorem mapIncr_rangesOf (a b c d age : Int) :
    mapIncr (rangesOf a b c d) (ageRangeKey age)
      = rangesOf (a + if 18 ≤ age ∧ age ≤ 25 then 1 else 0)
          (b + if 26 ≤ age ∧ age ≤ 35 then 1 else 0)
          (c + if 36 ≤ age ∧ age ≤ 50 then 1 else 0)
          (d + if 51 ≤ age ∨ age < 18 then 1 else 0) := by
  unfold ageRangeKey
  by_cases h1 : age ≥ 18 ∧ age ≤ 25
  · have h2 : ¬ (26 ≤ age ∧ age ≤ 35) := by omega
    have h3 : ¬ (36 ≤ age ∧ age ≤ 50) := by omega
    have h4 : ¬ (51 ≤ age ∨ age < 18) := by omega
    simp [h1, h2, h3, h4, mapIncr, mapSet, mapGet, rangesOf]
  · by_cases h2 : age ≥ 26 ∧ age ≤ 35
    · have h3 : ¬ (36 ≤ age ∧ age ≤ 50) := by omega
      have h4 : ¬ (51 ≤ age ∨ age < 18) := by omega
      simp [h1, h2, h3, h4, mapIncr, mapSet, mapGet, rangesOf]
    · by_cases h3 : age ≥ 36 ∧ age ≤ 50
      · have h4 : ¬ (51 ≤ age ∨ age < 18) := by omega
        simp [h1, h2, h3, h4, mapIncr, mapSet, mapGet, rangesOf]
      · have h4 : 51 ≤ age ∨ age < 18 := by omega
        simp [h1, h2, h3, h4, mapIncr, mapSet, mapGet, rangesOf]

theorem foldl_ageRanges (l : List User) (v : StatsVars) (a b c d : Int)
    (hv : v.ageRanges = rangesOf a b c d) :
    (l.foldl statsLoopBody v).ageRanges
      = rangesOf (a + l.countP (fun u => decide (18 ≤ u.Age ∧ u.Age ≤ 25)))
          (b + l.countP (fun u => decide (26 ≤ u.Age ∧ u.Age ≤ 35)))
          (c + l.countP (fun u => decide (36 ≤ u.Age ∧ u.Age ≤ 50)))
          (d + l.countP (fun u => decide (51 ≤ u.Age ∨ u.Age < 18))) := by
  induction l generalizing v a b c d with
  | nil => simp [hv]
  | cons u rest ih =>
    have hstep : (statsLoopBody v u).ageRanges
        = rangesOf (a + if 18 ≤ u.Age ∧ u.Age ≤ 25 then 1 else 0)
            (b + if 26 ≤ u.Age ∧ u.Age ≤ 35 then 1 else 0)
            (c + if 36 ≤ u.Age ∧ u.Age ≤ 50 then 1 else 0)
            (d + if 51 ≤ u.Age ∨ u.Age < 18 then 1 else 0) := by
      simp only [statsLoopBody, hv]
      exact mapIncr_rangesOf a b c d u.Age
    rw [List.foldl_cons, ih _ _ _ _ _ hstep]
    simp only [List.countP_cons, decide_eq_true_eq, Nat.cast_add, Nat.cast_ite, Nat.cast_one,
      Nat.cast_zero]
    congr 1 <;> ring

theorem wrapInt64_add (a b : Int) : wrapInt64 (wrapInt64 a + b) = wrapInt64 (a + b) := by
  unfold wrapInt64
  norm_num
  omega

theorem wrapInt64_of_range (a : Int) (h1 : -2 ^ 63 ≤ a) (h2 : a < 2 ^ 63) :
    wrapInt64 a = a := by
  unfold wrapInt64
  norm_num at h1 h2 ⊢
  omega

theorem foldl_totalAge (l : List User) (v : StatsVars)
    (hv : wrapInt64 v.totalAge = v.totalAge) :
    (l.foldl statsLoopBody v).totalAge = wrapInt64 (v.totalAge + (l.map User.Age).sum) := by
  induction l generalizing v with
  | nil => simpa using hv.symm
  | cons u rest ih =>
    have hstep : (statsLoopBody v u).totalAge = wrapInt64 (v.totalAge + u.Age) := rfl
    have hfix : wrapInt64 (statsLoopBody v u).totalAge = (statsLoopBody v u).totalAge := by
      rw [hstep]
      have := wrapInt64_add (v.totalAge + u.Age) 0
      simpa using this
    rw [List.foldl_cons, ih _ hfix, hstep, wrapInt64_add]
    simp [add_assoc]

theorem foldl_minAge (l : List User) (v : StatsVars) :
    ((l.foldl statsLoopBody v).minAge = v.minAge ∨
        (l.foldl statsLoopBody v).minAge ∈ l.map User.Age) ∧
      (l.foldl statsLoopBody v).minAge ≤ v.minAge ∧
      ∀ a ∈ l.map User.Age, (l.foldl statsLoopBody v).minAge ≤ a := by
  induction l generalizing v with
  | nil => simp
  | cons u rest ih =>
    obtain ⟨h1, h2, h3⟩ := ih (statsLoopBody v u)
    have hm : (statsLoopBody v u).minAge = if u.Age < v.minAge then u.Age else v.minAge := rfl
    rw [List.foldl_cons]
    refine ⟨?_, ?_, ?_⟩
    · rcases h1 with h1 | h1
      · rw [h1, hm]
        by_cases hlt : u.Age < v.minAge
        · simp [hlt]
        · simp [hlt]
      · right
        simp only [List.map_cons, List.mem_cons]
        exact Or.inr h1
    · rw [hm] at h2
      split_ifs at h2 <;> omega
    · intro a ha
      simp only [List.map_cons, List.mem_cons] at ha
      rcases ha with rfl | ha
      · rw [hm] at h2
        split_ifs at h2 <;> omega
      · exact h3 a ha

theorem foldl_maxAge (l : List User) (v : StatsVars) :
    ((l.foldl statsLoopBody v).maxAge = v.maxAge ∨
        (l.foldl statsLoopBody v).maxAge ∈ l.map User.Age) ∧
      v.maxAge ≤ (l.foldl statsLoopBody v).maxAge ∧
      ∀ a ∈ l.map User.Age, a ≤ (l.foldl statsLoopBody v).maxAge := by
  induction l generalizing v with
  | nil => simp
  | cons u rest ih =>
    obtain ⟨h1, h2, h3⟩ := ih (statsLoopBody v u)
    have hm : (statsLoopBody v u).maxAge = if u.Age > v.maxAge then u.Age else v.maxAge := rfl
    rw [List.foldl_cons]
    refine ⟨?_, ?_, ?_⟩
    · rcases h1 with h1 | h1
      · rw [h1, hm]
        by_cases hlt : u.Age > v.maxAge
        · simp [hlt]
        · simp [hlt]
      · right
        simp only [List.map_cons, List.mem_cons]
        exact Or.inr h1
    · rw [hm] at h2
      split_ifs at h2 <;> omega
    · intro a ha
      simp only [List.map_cons, List.mem_cons] at ha
      rcases ha with rfl | ha
      · rw [hm] at h2
        split_ifs at h2 <;> omega
      · exact h3 a ha

/-- The loop variables at the end of `GetStats` on a non-empty slice. -/
theorem getStats_cons (u0 : User) (rest : List User) :
    GetStats (u0 :: rest)
      = (fun v : StatsVars =>
          Stats.mk ((u0 :: rest).length : Int)
            (float64Div (float64OfInt v.totalAge)
              (float64OfInt ((u0 :: rest).length : Int))) v.minAge v.maxAge
            v.ageRanges)
        ((u0 :: rest).foldl statsLoopBody
          (StatsVars.mk 0 u0.Age u0.Age initialAgeRanges)) := by
  have hpos : ((u0 :: rest).length : Int) > 0 := by
    simp only [List.length_cons]
    omega
  simp only [GetStats, hpos, if_true]

theorem roundHalfEven_intCast (z : ℤ) : roundHalfEven (z : ℚ) = z := by
  simp [roundHalfEven]

theorem int_log_two_eq (x : ℚ) (k : ℤ) (h1 : (2 : ℚ) ^ k ≤ x) (h2 : x < (2 : ℚ) ^ (k + 1)) :
    Int.log 2 x = k := by
  have hx : 0 < x := lt_of_lt_of_le (by positivity) h1
  have a := (Int.zpow_le_iff_le_log (b := 2) (by norm_num) hx (x := k)).mp
    (by exact_mod_cast h1)
  have b := (Int.lt_zpow_iff_log_lt (b := 2) (by norm_num) hx (x := k + 1)).mp
    (by exact_mod_cast h2)
  omega

/-- Integers of magnitude below `2^53` are binary64 values: converting them is exact. -/
theorem roundFloat64_intCast (n : ℤ) (h : |n| < 2 ^ 53) : roundFloat64 (n : ℚ) = n := by
  by_cases hn : n = 0
  · simp [roundFloat64, hn]
  have hpos : (0 : ℚ) < |(n : ℚ)| := abs_pos.mpr (by exact_mod_cast hn)
  have h1 : (1 : ℚ) ≤ |(n : ℚ)| := by
    have : (1 : ℤ) ≤ |n| := Int.one_le_abs hn
    exact_mod_cast this
  have h2 : |(n : ℚ)| < (2 : ℚ) ^ (53 : ℤ) := by
    have : ((|n| : ℤ) : ℚ) < ((2 ^ 53 : ℤ) : ℚ) := by exact_mod_cast h
    rw [Int.cast_abs] at this
    calc |(n : ℚ)| < ((2 ^ 53 : ℤ) : ℚ) := this
      _ = (2 : ℚ) ^ (53 : ℤ) := by norm_num
  have hL0 : 0 ≤ Int.log 2 |(n : ℚ)| :=
    (Int.zpow_le_iff_le_log (b := 2) (by norm_num) hpos (x := 0)).mp (by simpa using h1)
  have hL1 : Int.log 2 |(n : ℚ)| < 53 :=
    (Int.lt_zpow_iff_log_lt (b := 2) (by norm_num) hpos (x := 53)).mp (by exact_mod_cast h2)
  obtain ⟨t, ht⟩ : ∃ t : ℕ, Int.log 2 |(n : ℚ)| - 52 = -(t : ℤ) :=
    ⟨(52 - Int.log 2 |(n : ℚ)|).toNat, by omega⟩
  have he : max (Int.log 2 |(n : ℚ)| - 52) (-1074) = -(t : ℤ) := by
    rw [← ht]
    exact max_eq_left (by omega)
  have hq : (n : ℚ) ≠ 0 := by exact_mod_cast hn
  have hdiv : (n : ℚ) / 2 ^ (-(t : ℤ)) = ((n * 2 ^ t : ℤ) : ℚ) := by
    rw [zpow_neg, zpow_natCast]
    push_cast
    field_simp
  unfold roundFloat64
  rw [if_neg hq, he, hdiv, roundHalfEven_intCast, zpow_neg, zpow_natCast]
  push_cast
  field_simp

/-- The binary64 value nearest to 4/3 is 6004799503160661 / 2^52, printed
1.3333333333333333. -/
theorem roundFloat64_four_thirds :
    roundFloat64 (4 / 3) = 6004799503160661 / 4503599627370496 := by
  have hlog : Int.log 2 |(4 / 3 : ℚ)| = 0 := by
    apply int_log_two_eq
    · rw [abs_of_pos (by norm_num)]
      norm_num
    · rw [abs_of_pos (by norm_num)]
      norm_num
  have hfloor : ⌊(4 / 3 : ℚ) / 2 ^ (-52 : ℤ)⌋ = 6004799503160661 := by
    rw [Int.floor_eq_iff]
    constructor <;> norm_num
  unfold roundFloat64
  rw [if_neg (by norm_num), hlog]
  have he : max ((0 : ℤ) - 52) (-1074) = -52 := by decide
  rw [he]
  unfold roundHalfEven
  rw [hfloor]
  norm_num

/-- A tie: 2^53 + 1 lies half way between the binary64 values 2^53 and 2^53 + 2 and is
rounded to the one with the even significand. -/
theorem roundFloat64_tie : roundFloat64 9007199254740993 = 9007199254740992 := by
  have hlog : Int.log 2 |(9007199254740993 : ℚ)| = 53 := by
    apply int_log_two_eq
    · rw [abs_of_pos (by norm_num)]
      norm_num
    · rw [abs_of_pos (by norm_num)]
      norm_num
  have hfloor : ⌊(9007199254740993 : ℚ) / 2 ^ (1 : ℤ)⌋ = 4503599627370496 := by
    rw [Int.floor_eq_iff]
    constructor <;> norm_num
  unfold roundFloat64
  rw [if_neg (by norm_num), hlog]
  have he : max ((53 : ℤ) - 52) (-1074) = 1 := by decide
  rw [he]
  unfold roundHalfEven
  rw [hfloor]
  norm_num

/-- With a sum and a count below `2^53` in magnitude both conversions are exact, so the
quotient is the exact mean rounded once. -/
theorem float64Div_of_small (a b : ℤ) (ha : |a| < 2 ^ 53) (hb : |b| < 2 ^ 53) :
    float64Div (float64OfInt a) (float64OfInt b) = roundFloat64 ((a : ℚ) / (b : ℚ)) := by
  simp only [float64Div, float64OfInt, roundFloat64_intCast a ha, roundFloat64_intCast b hb]

theorem countP_buckets (l : List User) :
    l.countP (fun u => decide (18 ≤ u.Age ∧ u.Age ≤ 25))
      + l.countP (fun u => decide (26 ≤ u.Age ∧ u.Age ≤ 35))
      + l.countP (fun u => decide (36 ≤ u.Age ∧ u.Age ≤ 50))
      + l.countP (fun u => decide (51 ≤ u.Age ∨ u.Age < 18)) = l.length := by
  induction l with
  | nil => simp
  | cons u rest ih =>
    simp only [List.countP_cons, decide_eq_true_eq, List.length_cons]
    by_cases h1 : 18 ≤ u.Age ∧ u.Age ≤ 25
    · have h2 : ¬ (26 ≤ u.Age ∧ u.Age ≤ 35) := by omega
      have h3 : ¬ (36 ≤ u.Age ∧ u.Age ≤ 50) := by omega
      have h4 : ¬ (51 ≤ u.Age ∨ u.Age < 18) := by omega
      rw [if_pos h1, if_neg h2, if_neg h3, if_neg h4]
      omega
    · by_cases h2 : 26 ≤ u.Age ∧ u.Age ≤ 35
      · have h3 : ¬ (36 ≤ u.Age ∧ u.Age ≤ 50) := by omega
        have h4 : ¬ (51 ≤ u.Age ∨ u.Age < 18) := by omega
        rw [if_neg h1, if_pos h2, if_neg h3, if_neg h4]
        omega
      · by_cases h3 : 36 ≤ u.Age ∧ u.Age ≤ 50
        · have h4 : ¬ (51 ≤ u.Age ∨ u.Age < 18) := by omega
          rw [if_neg h1, if_neg h2, if_pos h3, if_neg h4]
          omega
        · have h4 : 51 ≤ u.Age ∨ u.Age < 18 := by omega
          rw [if_neg h1, if_neg h2, if_neg h3, if_pos h4]
          omega

/-! ## Properties of the statistics -/

/-- The scenario of the test suite: ages 25, 35 and 45. -/
theorem getStats_sampleStatsUsers :
    GetStats sampleStatsUsers
      = { totalUsers := 3, averageAge := 35, minAge := 25, maxAge := 45,
          ageRanges := [("18-25", 1), ("26-35", 1), ("36-50", 1), ("51+", 0)] } := by
  have hsum : wrapInt64 (wrapInt64 (wrapInt64 25 + 35) + 45) = 105 := by decide
  have havg : float64Div (float64OfInt 105) (float64OfInt 3) = 35 := by
    rw [float64Div_of_small 105 3 (by decide) (by decide)]
    have h : ((105 : ℤ) : ℚ) / ((3 : ℤ) : ℚ) = ((35 : ℤ) : ℚ) := by norm_num
    rw [h, roundFloat64_intCast 35 (by decide)]
    norm_num
  simp only [sampleStatsUsers, getStats_cons]
  simp [sampleUser, statsLoopBody, initialAgeRanges, mapIncr, mapSet, mapGet, ageRangeKey,
    hsum, havg]

/-- The empty collection: all numbers are 0 and the four keys are present. -/
theorem getStats_nil :
    GetStats []
      = { totalUsers := 0, averageAge := 0, minAge := 0, maxAge := 0,
          ageRanges := [("18-25", 0), ("26-35", 0), ("36-50", 0), ("51+", 0)] } := by
  simp [GetStats, initialAgeRanges]

/-- C7, as stated, fails: three valid records with the ages 1, 1 and 2, stored by three
`Create` calls, give `average_age` 6004799503160661 / 2^52 (printed 1.3333333333333333),
which is not the exact rational 4/3 that the sum divided by `total_users` is. -/
theorem getStats_average_not_exact :
    (GetAll (run NewInMemoryUserRepository sampleThirdsCalls)).1.map User.Age = [1, 1, 2] ∧
      (∀ u ∈ (GetAll (run NewInMemoryUserRepository sampleThirdsCalls)).1,
        u.Validate = none) ∧
      (GetStats (GetAll (run NewInMemoryUserRepository sampleThirdsCalls)).1).totalUsers = 3 ∧
      (GetStats (GetAll (run NewInMemoryUserRepository sampleThirdsCalls)).1).averageAge
        = 6004799503160661 / 4503599627370496 ∧
      (GetStats (GetAll (run NewInMemoryUserRepository sampleThirdsCalls)).1).averageAge
        ≠ ((((GetAll (run NewInMemoryUserRepository sampleThirdsCalls)).1.map User.Age).sum
              : Int) : ℚ)
            / ((GetStats (GetAll (run NewInMemoryUserRepository sampleThirdsCalls)).1).totalUsers
              : ℚ) := by
  have hl : (GetAll (run NewInMemoryUserRepository sampleThirdsCalls)).1
      = [{ ID := 1, Name := "Alice", Email := "a@test.com", Age := 1, CreatedAt := 10,
           UpdatedAt := 11 },
         { ID := 2, Name := "Bob", Email := "b@test.com", Age := 1, CreatedAt := 20,
           UpdatedAt := 21 },
         { ID := 3, Name := "Carol", Email := "c@test.com", Age := 2, CreatedAt := 30,
           UpdatedAt := 31 }] := by
    decide
  have hsum : wrapInt64 (wrapInt64 (wrapInt64 1 + 1) + 2) = 4 := by decide
  have havg : float64Div (float64OfInt 4) (float64OfInt 3)
      = 6004799503160661 / 4503599627370496 := by
    rw [float64Div_of_small 4 3 (by decide) (by decide)]
    have h : ((4 : ℤ) : ℚ) / ((3 : ℤ) : ℚ) = 4 / 3 := by norm_num
    rw [h, roundFloat64_four_thirds]
  have hstats : (GetStats (GetAll (run NewInMemoryUserRepository sampleThirdsCalls)).1)
      = { totalUsers := 3, averageAge := 6004799503160661 / 4503599627370496, minAge := 1,
          maxAge := 2,
          ageRanges := [("18-25", 0), ("26-35", 0), ("36-50", 0), ("51+", 3)] } := by
    rw [hl, getStats_cons]
    simp [statsLoopBody, initialAgeRanges, mapIncr, mapSet, mapGet, ageRangeKey, hsum, havg]
  rw [hstats, hl]
  refine ⟨rfl, by decide, rfl, rfl, ?_⟩
  norm_num

/-- C7, amended: for the records returned by `GetAll`, `total_users` is their number; on
the empty sequence `min_age`, `max_age` and `average_age` are 0; on a non-empty sequence
`min_age` is the least and `max_age` the greatest age that occurs, and `average_age` is
the `float64` quotient of the converted 64-bit sum of the ages and the converted count.
When the sum and the count are below `2^53` in magnitude that is the exact mean rounded to
the nearest `float64`, and it is the exact mean whenever the exact mean is an integer. -/
theorem getStats_summary_float64 (r : InMemoryUserRepository) :
    (GetStats (GetAll r).1).totalUsers = ((GetAll r).1.length : Int) ∧
      ((GetAll r).1 = [] →
        (GetStats (GetAll r).1).minAge = 0 ∧ (GetStats (GetAll r).1).maxAge = 0 ∧
        (GetStats (GetAll r).1).averageAge = 0) ∧
      ((GetAll r).1 ≠ [] →
        ((GetStats (GetAll r).1).minAge ∈ (GetAll r).1.map User.Age ∧
          ∀ a ∈ (GetAll r).1.map User.Age, (GetStats (GetAll r).1).minAge ≤ a) ∧
        ((GetStats (GetAll r).1).maxAge ∈ (GetAll r).1.map User.Age ∧
          ∀ a ∈ (GetAll r).1.map User.Age, a ≤ (GetStats (GetAll r).1).maxAge) ∧
        (GetStats (GetAll r).1).averageAge
          = float64Div (float64OfInt (wrapInt64 ((GetAll r).1.map User.Age).sum))
              (float64OfInt (GetStats (GetAll r).1).totalUsers)) ∧
      ((GetAll r).1 ≠ [] → |((GetAll r).1.map User.Age).sum| < 2 ^ 53 →
        ((GetAll r).1.length : Int) < 2 ^ 53 →
        (GetStats (GetAll r).1).averageAge
            = roundFloat64 (((((GetAll r).1.map User.Age).sum : Int) : ℚ)
                / (((GetStats (GetAll r).1).totalUsers : Int) : ℚ)) ∧
          ∀ k : ℤ, ((((GetAll r).1.map User.Age).sum : Int) : ℚ)
                / (((GetStats (GetAll r).1).totalUsers : Int) : ℚ) = (k : ℚ) →
            (GetStats (GetAll r).1).averageAge = (k : ℚ)) := by
  simp only [GetAll]
  cases hu : r.users with
  | nil => simp [GetStats]
  | cons u0 rest =>
    rw [getStats_cons]
    have hmin := foldl_minAge (u0 :: rest) (StatsVars.mk 0 u0.Age u0.Age initialAgeRanges)
    have hmax := foldl_maxAge (u0 :: rest) (StatsVars.mk 0 u0.Age u0.Age initialAgeRanges)
    have htot : ((u0 :: rest).foldl statsLoopBody
        (StatsVars.mk 0 u0.Age u0.Age initialAgeRanges)).totalAge
          = wrapInt64 (((u0 :: rest).map User.Age).sum) := by
      have h0 : wrapInt64 0 = 0 := by decide
      have := foldl_totalAge (u0 :: rest) (StatsVars.mk 0 u0.Age u0.Age initialAgeRanges) h0
      simpa using this
    have hmem : u0.Age ∈ (u0 :: rest).map User.Age := by simp
    refine ⟨rfl, fun h => absurd h (by simp), fun _ => ⟨⟨?_, hmin.2.2⟩, ⟨?_, hmax.2.2⟩, ?_⟩,
      ?_⟩
    · rcases hmin.1 with h | h
      · simp only at h ⊢
        rw [h]
        exact hmem
      · exact h
    · rcases hmax.1 with h | h
      · simp only at h ⊢
        rw [h]
        exact hmem
      · exact h
    · simp only
      rw [htot]
    · intro _ hs hc
      simp only
      rw [htot]
      have hs2 := abs_lt.mp hs
      have hwrap : wrapInt64 (((u0 :: rest).map User.Age).sum)
          = ((u0 :: rest).map User.Age).sum :=
        wrapInt64_of_range _ (by omega) (by omega)
      have hcpos : (0 : Int) < ((u0 :: rest).length : Int) := by
        simp only [List.length_cons]
        omega
      have hc2 : |((u0 :: rest).length : Int)| < 2 ^ 53 := by
        rw [abs_of_pos hcpos]
        exact hc
      rw [hwrap, float64Div_of_small _ _ hs hc2]
      refine ⟨rfl, ?_⟩
      intro k hk
      rw [hk]
      apply roundFloat64_intCast
      have hcq : (((u0 :: rest).length : Int) : ℚ) ≠ 0 := by
        exact_mod_cast (ne_of_gt hcpos)
      have hmul : ((u0 :: rest).map User.Age).sum = k * ((u0 :: rest).length : Int) := by
        have := (div_eq_iff hcq).mp hk
        exact_mod_cast this
      have habs : |k| ≤ |((u0 :: rest).map User.Age).sum| := by
        rw [hmul, abs_mul, abs_of_pos hcpos]
        exact le_mul_of_one_le_right (abs_nonneg k) (by omega)
      exact lt_of_le_of_lt habs hs

theorem getStats_summary_float64_witness :
    ((GetAll sampleStatsRepository).1 ≠ [] ∧
        |((GetAll sampleStatsRepository).1.map User.Age).sum| < 2 ^ 53 ∧
        ((GetAll sampleStatsRepository).1.length : Int) < 2 ^ 53 ∧
        ((((GetAll sampleStatsRepository).1.map User.Age).sum : Int) : ℚ)
          / (((GetStats (GetAll sampleStatsRepository).1).totalUsers : Int) : ℚ)
          = ((35 : ℤ) : ℚ)) ∧
      (GetStats (GetAll sampleStatsRepository).1).averageAge = ((35 : ℤ) : ℚ) := by
  have h1 : (GetAll sampleStatsRepository).1 ≠ [] := by decide
  have h2 : |((GetAll sampleStatsRepository).1.map User.Age).sum| < 2 ^ 53 := by decide
  have h3 : ((GetAll sampleStatsRepository).1.length : Int) < 2 ^ 53 := by decide
  have h4 : ((((GetAll sampleStatsRepository).1.map User.Age).sum : Int) : ℚ)
      / (((GetStats (GetAll sampleStatsRepository).1).totalUsers : Int) : ℚ)
      = ((35 : ℤ) : ℚ) := by
    have hs : ((GetAll sampleStatsRepository).1.map User.Age).sum = 105 := by decide
    have ht : (GetStats (GetAll sampleStatsRepository).1).totalUsers = 3 := by decide
    rw [hs, ht]
    norm_num
  exact ⟨⟨h1, h2, h3, h4⟩,
    ((getStats_summary_float64 sampleStatsRepository).2.2.2 h1 h2 h3).2 35 h4⟩

/-- C8: the `age_ranges` map computed by `GetStats` has exactly the keys "18-25", "26-35",
"36-50" and "51+"; their values count the records with age in 18..25, in 26..35, in 36..50,
and with age at least 51 or below 18; the four counts add up to `total_users`. -/
theorem getStats_ageRanges (r : InMemoryUserRepository) :
    (GetStats (GetAll r).1).ageRanges.map Prod.fst = ["18-25", "26-35", "36-50", "51+"] ∧
      mapGet (GetStats (GetAll r).1).ageRanges "18-25"
        = (GetAll r).1.countP (fun u => decide (18 ≤ u.Age ∧ u.Age ≤ 25)) ∧
      mapGet (GetStats (GetAll r).1).ageRanges "26-35"
        = (GetAll r).1.countP (fun u => decide (26 ≤ u.Age ∧ u.Age ≤ 35)) ∧
      mapGet (GetStats (GetAll r).1).ageRanges "36-50"
        = (GetAll r).1.countP (fun u => decide (36 ≤ u.Age ∧ u.Age ≤ 50)) ∧
      mapGet (GetStats (GetAll r).1).ageRanges "51+"
        = (GetAll r).1.countP (fun u => decide (51 ≤ u.Age ∨ u.Age < 18)) ∧
      mapGet (GetStats (GetAll r).1).ageRanges "18-25"
          + mapGet (GetStats (GetAll r).1).ageRanges "26-35"
          + mapGet (GetStats (GetAll r).1).ageRanges "36-50"
          + mapGet (GetStats (GetAll r).1).ageRanges "51+"
        = (GetStats (GetAll r).1).totalUsers := by
  simp only [GetAll]
  have hshape : (GetStats r.users).ageRanges
      = rangesOf (r.users.countP (fun u => decide (18 ≤ u.Age ∧ u.Age ≤ 25)))
          (r.users.countP (fun u => decide (26 ≤ u.Age ∧ u.Age ≤ 35)))
          (r.users.countP (fun u => decide (36 ≤ u.Age ∧ u.Age ≤ 50)))
          (r.users.countP (fun u => decide (51 ≤ u.Age ∨ u.Age < 18))) := by
    cases hu : r.users with
    | nil => simp [GetStats, initialAgeRanges, rangesOf]
    | cons u0 rest =>
      rw [getStats_cons]
      have := foldl_ageRanges (u0 :: rest) (StatsVars.mk 0 u0.Age u0.Age initialAgeRanges)
        0 0 0 0 rfl
      simpa using this
  have htotal : (GetStats r.users).totalUsers = (r.users.length : Int) := by
    cases hu : r.users with
    | nil => simp [GetStats]
    | cons u0 rest => rw [getStats_cons]
  have hsum := countP_buckets r.users
  rw [hshape, htotal]
  refine ⟨by simp [rangesOf], by simp [rangesOf, mapGet], by simp [rangesOf, mapGet],
    by simp [rangesOf, mapGet], by simp [rangesOf, mapGet], ?_⟩
  have h4 : ("18-25" = "26-35") = False := by decide
  have h5 : ("18-25" = "36-50") = False := by decide
  have h6 : ("26-35" = "36-50") = False := by decide
  have h7 : ("18-25" = "51+") = False := by decide
  have h8 : ("26-35" = "51+") = False := by decide
  have h9 : ("36-50" = "51+") = False := by decide
  simp only [rangesOf, mapGet, h4, h5, h6, h7, h8, h9, if_true, if_false]
  exact_mod_cast hsum

end Controllers

/-! ## Properties of the validator -/

namespace Models

/-- C9: `Validate` reports the first failing rule in the order of the source: empty name,
name shorter than 2 (by `len`), empty email, age at most 0, age above 120; it returns no
error exactly when the name has length at least 2, the email is non-empty and the age lies
in 1..120.  Its only input is the record. -/
theorem validate_first_failing_rule (u : User) :
    (u.Name = "" → u.Validate = some "name is required") ∧
      (u.Name ≠ "" → u.Name.utf8ByteSize < 2 →
        u.Validate = some "name must be at least 2 characters long") ∧
      (u.Name ≠ "" → 2 ≤ u.Name.utf8ByteSize → u.Email = "" →
        u.Validate = some "email is required") ∧
      (u.Name ≠ "" → 2 ≤ u.Name.utf8ByteSize → u.Email ≠ "" → u.Age ≤ 0 →
        u.Validate = some "age must be greater than 0") ∧
      (u.Name ≠ "" → 2 ≤ u.Name.utf8ByteSize → u.Email ≠ "" → 0 < u.Age → 120 < u.Age →
        u.Validate = some "age must be less than 120") ∧
      (u.Validate = none ↔
        2 ≤ u.Name.utf8ByteSize ∧ u.Email ≠ "" ∧ 1 ≤ u.Age ∧ u.Age ≤ 120) := by
  have hempty : u.Name = "" → u.Name.utf8ByteSize = 0 := by
    intro h
    rw [h]
    rfl
  refine ⟨?_, ?_, ?_, ?_, ?_, ?_⟩
  · intro h
    simp [User.Validate, h]
  · intro h1 h2
    simp [User.Validate, h1, h2]
  · intro h1 h2 h3
    simp [User.Validate, h1, Nat.not_lt.mpr h2, h3]
  · intro h1 h2 h3 h4
    simp [User.Validate, h1, Nat.not_lt.mpr h2, h3, h4]
  · intro h1 h2 h3 h4 h5
    simp [User.Validate, h1, Nat.not_lt.mpr h2, h3, not_le.mpr h4, h5]
  · unfold User.Validate
    constructor
    · intro h
      split_ifs at h with h1 h2 h3 h4 h5
      exact ⟨by omega, h3, by omega, by omega⟩
    · rintro ⟨h2, h3, h4, h5⟩
      have h1 : u.Name ≠ "" := fun h => by
        have := hempty h
        omega
      rw [if_neg h1, if_neg (by omega), if_neg h3, if_neg (by omega), if_neg (by omega)]

/-- C10, as stated, fails: a record with a valid name and age whose email
"invalid-email" contains no `@` passes `Validate`. -/
theorem validate_accepts_email_without_at :
    2 ≤ sampleUser.Name.utf8ByteSize ∧ 1 ≤ sampleUser.Age ∧ sampleUser.Age ≤ 120 ∧
      sampleUser.Email = "invalid-email" ∧ '@' ∉ sampleUser.Email.toList ∧
      sampleUser.Validate = none := by
  decide

/-- C10, amended: for a record with a valid name and age, `Validate` returns an error
exactly when the email is empty, the error then being "email is required"; a non-empty
email of any shape is accepted. -/
theorem validate_email_rule (u : User) (hname : 2 ≤ u.Name.utf8ByteSize)
    (hage : 1 ≤ u.Age ∧ u.Age ≤ 120) :
    (u.Validate ≠ none ↔ u.Email = "") ∧
      (u.Email = "" → u.Validate = some "email is required") ∧
      (u.Email ≠ "" → u.Validate = none) := by
  have hne : u.Name ≠ "" := fun h => by
    have : u.Name.utf8ByteSize = 0 := by
      rw [h]
      rfl
    omega
  have h1 : u.Email = "" → u.Validate = some "email is required" := by
    intro h
    simp [User.Validate, hne, Nat.not_lt.mpr hname, h]
  have h2 : u.Email ≠ "" → u.Validate = none := by
    intro h
    unfold User.Validate
    rw [if_neg hne, if_neg (by omega), if_neg h, if_neg (by omega), if_neg (by omega)]
  refine ⟨⟨?_, ?_⟩, h1, h2⟩
  · intro hv
    by_contra he
    exact hv (h2 he)
  · intro he
    rw [h1 he]
    simp

theorem validate_email_rule_witness :
    (2 ≤ sampleUser.Name.utf8ByteSize ∧ (1 ≤ sampleUser.Age ∧ sampleUser.Age ≤ 120)) ∧
      ((sampleUser.Validate ≠ none ↔ sampleUser.Email = "") ∧
        (sampleUser.Email = "" → sampleUser.Validate = some "email is required") ∧
        (sampleUser.Email ≠ "" → sampleUser.Validate = none)) :=
  ⟨by decide, validate_email_rule sampleUser (by decide) (by decide)⟩

end Models

/-! ## Listing order -/

namespace Models

open InMemoryUserRepository

theorem update_map_ID (r : InMemoryUserRepository) (id : Int) (user : User) (now : Time) :
    (Update r id user now).1.users.map User.ID = r.users.map User.ID := by
  cases hf : rangeFind id r.users 0 with
  | none => simp [Update, hf]
  | some p =>
    obtain ⟨k, u⟩ := p
    obtain ⟨pre, post, hl, hk, hu, -⟩ := rangeFind_eq_some id r.users 0 k u hf
    simp only [Nat.zero_add] at hk
    subst hk
    rw [update_of_rangeFind r id user now pre.length u hf]
    simp only [hl, set_split]
    simp [hu]

/-- The stored ids, in storage order, are what is left of the ids stored before followed
by the ids assigned since. -/
theorem stored_ids_sublist (r : InMemoryUserRepository) (ops : List Op) :
    ((run r ops).users.map User.ID).Sublist (r.users.map User.ID ++ assignedIDs r ops) := by
  induction ops generalizing r with
  | nil => simp [run, assignedIDs]
  | cons op ops ih =>
    cases op with
    | create user now1 now2 =>
      have h := ih (Create r user now1 now2).1
      simp only [run, List.foldl_cons, step, assignedIDs] at h ⊢
      simpa [Create] using h
    | update id user now =>
      have h := ih (Update r id user now).1
      rw [update_map_ID] at h
      simpa only [run, List.foldl_cons, step, assignedIDs] using h
    | delete id =>
      have h := ih (Delete r id).1
      have hs := ((delete_users_sublist r id).map User.ID).append
        (List.Sublist.refl (assignedIDs (Delete r id).1 ops))
      simpa only [run, List.foldl_cons, step, assignedIDs] using h.trans hs

/-- C11: in every state reachable from a new repository by `Create`, `Update` and
`Delete` calls, `GetAll` returns the stored slice without error; the ids along it are a
subsequence of the ids assigned by the `Create` calls in call order and are strictly
increasing; when nothing is stored, as in a new repository, it returns the empty sequence
without error. -/
theorem getAll_insertion_order (ops : List Op) :
    GetAll (run NewInMemoryUserRepository ops)
        = ((run NewInMemoryUserRepository ops).users, none) ∧
      ((GetAll (run NewInMemoryUserRepository ops)).1.map User.ID).Sublist
        (assignedIDs NewInMemoryUserRepository ops) ∧
      ((GetAll (run NewInMemoryUserRepository ops)).1.map User.ID).Pairwise (· < ·) ∧
      ((run NewInMemoryUserRepository ops).users = [] →
        GetAll (run NewInMemoryUserRepository ops) = ([], none)) ∧
      GetAll NewInMemoryUserRepository = ([], none) := by
  have hsub : ((run NewInMemoryUserRepository ops).users.map User.ID).Sublist
      (assignedIDs NewInMemoryUserRepository ops) := by
    have h := stored_ids_sublist NewInMemoryUserRepository ops
    simpa [NewInMemoryUserRepository] using h
  refine ⟨rfl, hsub, ?_, ?_, rfl⟩
  · exact (assignedIDs_increasing NewInMemoryUserRepository ops).sublist hsub
  · intro h
    simp [GetAll, h]

/-- C12 at a one-character name: the name U+00E9 has one character and two bytes, and
`Validate` returns no error for it, while the one-character name "A" is rejected with
"name must be at least 2 characters long". -/
theorem validate_accepts_one_character_name :
    oneCharacterNameUser.Name = "é" ∧ oneCharacterNameUser.Name.length = 1 ∧
      oneCharacterNameUser.Name.utf8ByteSize = 2 ∧
      oneCharacterNameUser.Validate = none ∧
      ({ oneCharacterNameUser with Name := "A" } : User).Name.length = 1 ∧
      ({ oneCharacterNameUser with Name := "A" } : User).Validate
        = some "name must be at least 2 characters long" := by
  decide

end Models
